import Mathlib

/-!
Verification development for the ddlm rendering core: a shallow embedding of
src/draw.rs (glyph cache, text drawing, box drawing) and src/graphics.rs
(pixel clipping, Bresenham line drawing), together with spec-modelled
definitions for the Buffer (viewport) and Color modules whose source files
are not part of the source tree.

Machine-integer casts are modelled explicitly over Nat and Int.
-/

/-- Cast of a Rust i32 value (modelled as an unbounded integer) to u32,
two's-complement wrapping, as performed by `as u32`. -/
def u32cast (z : ℤ) : ℕ := (z % (2 ^ 32 : ℤ)).toNat

/-- Cast of a Rust u32 value to i32, two's-complement wrapping, as performed
by `as i32`. -/
def i32ofU32 (n : ℕ) : ℤ := (((n : ℤ) + 2 ^ 31) % 2 ^ 32) - 2 ^ 31

/-- Saturating cast of a nonnegative float (modelled as a rational) to u32,
as performed by Rust `as u32` on an f32. -/
def f32toU32 (q : ℚ) : ℕ := min (max ⌊q⌋ 0).toNat (2 ^ 32 - 1)

/-- Clamp a rational to the interval [0, 1]. -/
def clamp01 (a : ℚ) : ℚ := max 0 (min 1 a)

/-- Modelled from the spec: the Color type of color.rs is not under src/.
Section 3 of the spec describes a 3-channel 8-bit color value; channels are
modelled as rationals so that the blend arithmetic of section 4.1 is exact. -/
structure Color where
  r : ℚ
  g : ℚ
  b : ℚ
deriving DecidableEq

/-- Modelled from the spec: Color::blend of color.rs is not under src/.
Section 4.1: per-channel linear interpolation bg*(1-alpha) + fg*alpha,
with alpha clamped to [0,1] rather than producing under/overflowed
channels. -/
def Color.blend (bg fg : Color) (a : ℚ) : Color :=
  ⟨bg.r * (1 - clamp01 a) + fg.r * clamp01 a,
   bg.g * (1 - clamp01 a) + fg.g * clamp01 a,
   bg.b * (1 - clamp01 a) + fg.b * clamp01 a⟩

/-- Modelled from the spec: BufferError of buffer.rs is not under src/.
Section 7: OutOfBounds is the error for a coordinate outside the view. -/
inductive BufferError where
  | OutOfBounds
deriving DecidableEq

/-- Modelled from the spec: the Buffer (Viewport) type of buffer.rs is not
under src/. Section 4.2 / design note: a Viewport is a set of coordinates
(width, height) resolved against a backing pixel store; the addressable
pixels are modelled directly as a function from coordinates to colors. -/
structure Buffer where
  width : ℕ
  height : ℕ
  pixels : ℕ × ℕ → Color

/-- The buffer with one pixel overwritten. -/
def writePixel (b : Buffer) (pos : ℕ × ℕ) (c : Color) : Buffer :=
  ⟨b.width, b.height, fun p => if p = pos then c else b.pixels p⟩

/-- Modelled from the spec: Buffer::put of buffer.rs is not under src/.
Section 4.2: put(pos, color) is bounds-checked; it returns an OutOfBounds
failure for any coordinate outside the current view and never writes
outside bounds. -/
def Buffer.put (b : Buffer) (pos : ℕ × ℕ) (c : Color) : Except BufferError Buffer :=
  if pos.1 < b.width ∧ pos.2 < b.height then
    .ok (writePixel b pos c)
  else
    .error .OutOfBounds

/-- A put whose error is discarded, as in the Rust idiom of binding the
result of `buf.put(...)` to an unused variable; on failure the buffer is
left unchanged. -/
def Buffer.putIgnore (b : Buffer) (pos : ℕ × ℕ) (c : Color) : Buffer :=
  match b.put pos c with
  | .ok b2 => b2
  | .error _ => b

/-- DrawError from src/draw.rs. -/
inductive DrawError where
  | GlyphNotInCache (ch : Char)
deriving DecidableEq

/-- CachedGlyph from src/draw.rs: pixel dimensions, bounding-box origin and
a row-major coverage raster. Coverage values (f32 in the source) are
modelled as rationals. -/
structure CachedGlyph where
  dimensions : ℕ × ℕ
  origin : ℤ × ℤ
  render : List ℚ
deriving DecidableEq

/-- CachedGlyph::draw from src/draw.rs: walk the coverage raster linearly,
writing each value at (x + pos.0 + origin.0, y + pos.1 + origin.1) cast to
u32, blended over the supplied background; put errors are discarded. The
fold state is (x, y, buffer). -/
def CachedGlyph.draw (gl : CachedGlyph) (buf : Buffer) (pos : ℤ × ℤ) (bg c : Color) : Buffer :=
  (gl.render.foldl
    (fun st v =>
      let b2 := st.2.2.putIgnore
        (u32cast (st.1 + pos.1 + gl.origin.1), u32cast (st.2.1 + pos.2 + gl.origin.2))
        (bg.blend c v)
      if st.1 = i32ofU32 gl.dimensions.1 - 1 then ((0 : ℤ), st.2.1 + 1, b2)
      else (st.1 + 1, st.2.1, b2))
    ((0 : ℤ), (0 : ℤ), buf)).2.2

/-- Font from src/draw.rs: a cache of glyphs keyed by character, a reference
to a typeface and a pixel size. Rasterization (CachedGlyph::new, which calls
into the external rusttype crate) is modelled as an opaque-to-the-claims
function carried by the Font, standing for
fun ch => CachedGlyph::new(self.font, self.size, ch). -/
structure Font where
  glyphs : Char → Option CachedGlyph
  rasterize : Char → CachedGlyph
  size : ℚ

/-- Font::add_str_to_cache from src/draw.rs: for each character of the
string, rasterize and insert it if it is not already cached. -/
def Font.addStrToCache (f : Font) : List Char → Font
  | [] => f
  | ch :: rest =>
    (if (f.glyphs ch).isSome then f
     else ⟨fun c => if c = ch then some (f.rasterize ch) else f.glyphs c,
           f.rasterize, f.size⟩).addStrToCache rest

/-- The glyph-collection pass of Font::draw_text from src/draw.rs (its first
loop): look up every character, failing with GlyphNotInCache on the first
character that has no cached glyph. -/
def Font.collect (f : Font) : List Char → Except DrawError (List CachedGlyph)
  | [] => .ok []
  | ch :: rest =>
    match f.glyphs ch with
    | none => .error (.GlyphNotInCache ch)
    | some gl => (f.collect rest).map (gl :: ·)

/-- The baseline offset computed by the first loop of Font::draw_text in
src/draw.rs: the running variable off starts at 0 and is lowered to any
smaller glyph-origin y-coordinate. -/
def baselineOff (gs : List CachedGlyph) : ℤ :=
  gs.foldl (fun off gl => if gl.origin.2 < off then gl.origin.2 else off) 0

/-- The drawing pass of Font::draw_text from src/draw.rs (its second loop):
draw each glyph at the running x offset and common vertical offset -off,
then advance the x offset by the glyph width (cast to i32) plus its
horizontal origin. Returns the final x offset and the buffer. -/
def drawGlyphs (bg c : Color) (off : ℤ) : List CachedGlyph → ℤ → Buffer → ℤ × Buffer
  | [], xOff, buf => (xOff, buf)
  | gl :: rest, xOff, buf =>
    drawGlyphs bg c off rest (xOff + i32ofU32 gl.dimensions.1 + gl.origin.1)
      (gl.draw buf (xOff, -off) bg c)

/-- Font::draw_text from src/draw.rs. On a lookup failure the buffer is
returned untouched (the first loop performs no writes). On success the
result is ((x_off as u32, size as u32), final buffer). -/
def Font.drawText (f : Font) (buf : Buffer) (bg c : Color) (s : List Char) :
    Except DrawError (ℕ × ℕ) × Buffer :=
  match f.collect s with
  | .error e => (.error e, buf)
  | .ok gs =>
    let st := drawGlyphs bg c (baselineOff gs) gs 0 buf
    (.ok (u32cast st.1, f32toU32 f.size), st.2)

/-- Font::auto_draw_text from src/draw.rs: add_str_to_cache then draw_text;
also returns the mutated font. -/
def Font.autoDrawText (f : Font) (buf : Buffer) (bg c : Color) (s : List Char) :
    (Except DrawError (ℕ × ℕ) × Buffer) × Font :=
  let f2 := f.addStrToCache s
  (f2.drawText buf bg c s, f2)

/-- Unsigned subtraction with the Rust u32 underflow made explicit: none
models the arithmetic-underflow panic of a debug build. -/
def checkedSub (a b : ℕ) : Option ℕ := if b ≤ a then some (a - b) else none

/-- The first loop of draw_box from src/draw.rs: for each x, put (x, 0) and
(x, dim.1 - 1), discarding put errors; the subtraction dim.1 - 1 is
evaluated inside the loop body, after the first put. -/
def boxRows (c : Color) (d1 : ℕ) : List ℕ → Buffer → Option Buffer
  | [], buf => some buf
  | x :: xs, buf =>
    let b1 := buf.putIgnore (x, 0) c
    (checkedSub d1 1).bind fun bot => boxRows c d1 xs (b1.putIgnore (x, bot) c)

/-- The second loop of draw_box from src/draw.rs: for each y, put (0, y) and
(dim.0 - 1, y), propagating put errors; the subtraction dim.0 - 1 is
evaluated inside the loop body, after the first put. -/
def boxCols (c : Color) (d0 : ℕ) : List ℕ → Buffer → Option (Except BufferError Buffer)
  | [], buf => some (.ok buf)
  | y :: ys, buf =>
    match buf.put (0, y) c with
    | .error e => some (.error e)
    | .ok b1 =>
      (checkedSub d0 1).bind fun rt =>
        match b1.put (rt, y) c with
        | .error e => some (.error e)
        | .ok b2 => boxCols c d0 ys b2

/-- draw_box from src/draw.rs. The outer Option is none exactly when a
closing-edge index subtraction underflows. -/
def drawBox (buf : Buffer) (c : Color) (dim : ℕ × ℕ) : Option (Except BufferError Buffer) :=
  (boxRows c dim.2 (List.range dim.1) buf).bind fun b1 =>
    boxCols c dim.1 (List.range dim.2) b1

/-- Whether a coordinate lies on the 1-pixel border of a dim.0 by dim.1
box. -/
def onBorder (d0 d1 : ℕ) (p : ℕ × ℕ) : Bool :=
  decide (p.1 < d0) && decide (p.2 < d1) &&
    (decide (p.1 = 0) || decide (p.1 = d0 - 1) || decide (p.2 = 0) || decide (p.2 = d1 - 1))

/-- All coordinates of a w by h pixel grid. -/
def coords (w h : ℕ) : List (ℕ × ℕ) :=
  (List.range w).flatMap fun x => (List.range h).map fun y => (x, y)

/-- The number of distinct border pixels of a d0 by d1 box. -/
def borderCount (d0 d1 : ℕ) : ℕ :=
  ((coords d0 d1).filter (onBorder d0 d1)).length

/-- The Color(u8, u8, u8) tuple struct of src/graphics.rs. -/
structure GColor where
  r : ℕ
  g : ℕ
  b : ℕ
deriving DecidableEq

/-- The Graphics state of src/graphics.rs: surface dimensions in pixels,
row stride in bytes, the byte buffer, and the background/foreground
colors. -/
structure Graphics where
  width : ℕ
  height : ℕ
  stride : ℕ
  buf : List ℕ
  bgColor : GColor
  fgColor : GColor
deriving DecidableEq

/-- Graphics::put_pixel from src/graphics.rs: silently return on any
out-of-range coordinate, otherwise write the four bytes b, g, r, 0xff at
offset y*stride + x*4 provided the offset fits in the buffer. -/
def Graphics.putPixel (g : Graphics) (x y : ℤ) : Graphics :=
  if x < 0 ∨ y < 0 ∨ g.width ≤ x.toNat ∨ g.height ≤ y.toNat then g
  else
    let i := y.toNat * g.stride + x.toNat * 4
    if i + 3 < g.buf.length then
      ⟨g.width, g.height, g.stride,
        ((((g.buf.set i g.fgColor.b).set (i + 1) g.fgColor.g).set
            (i + 2) g.fgColor.r).set (i + 3) 255),
        g.bgColor, g.fgColor⟩
    else g

/-- The loop of Graphics::draw_line from src/graphics.rs, instrumented to
return the list of coordinates passed to put_pixel; put_pixel does not
influence the loop variables, so the loop factors into this trace followed
by a fold of put_pixel over it. Recursion is on explicit fuel: none models
a loop that has not reached its break condition within the fuel. -/
def lineLoop (x1 y1 dx dy sx sy : ℤ) : ℕ → ℤ → ℤ → ℤ → Option (List (ℤ × ℤ))
  | 0, _, _, _ => none
  | fuel + 1, x, y, err =>
    if x = x1 ∧ y = y1 then some [(x, y)]
    else
      let e2 := 2 * err
      let x2 := if dy ≤ e2 then x + sx else x
      let errA := if dy ≤ e2 then err + dy else err
      let y2 := if e2 ≤ dx then y + sy else y
      let errB := if e2 ≤ dx then errA + dx else errA
      (lineLoop x1 y1 dx dy sx sy fuel x2 y2 errB).map ((x, y) :: ·)

/-- Fuel sufficient for the Bresenham loop: the taxicab distance between
the endpoints plus one. -/
def lineFuel (x0 y0 x1 y1 : ℤ) : ℕ := (x1 - x0).natAbs + (y1 - y0).natAbs + 1

/-- Graphics::draw_line from src/graphics.rs, trace part: the initial
values dx, sx, dy, sy, err exactly as computed in the source. -/
def lineTrace (x0 y0 x1 y1 : ℤ) : Option (List (ℤ × ℤ)) :=
  let dx := |x1 - x0|
  let sx : ℤ := if x0 < x1 then 1 else -1
  let dy := -|y1 - y0|
  let sy : ℤ := if y0 < y1 then 1 else -1
  lineLoop x1 y1 dx dy sx sy (lineFuel x0 y0 x1 y1) x0 y0 (dx + dy)

/-- Graphics::draw_line from src/graphics.rs: apply put_pixel along the
trace. -/
def Graphics.drawLine (g : Graphics) (x0 y0 x1 y1 : ℤ) : Option Graphics :=
  (lineTrace x0 y0 x1 y1).map fun tr => tr.foldl (fun gg p => gg.putPixel p.1 p.2) g

deriving instance DecidableEq for Except

/-- The per-glyph cursor advance of Font::draw_text in src/draw.rs: glyph
width cast to i32 plus horizontal origin offset. -/
def advance (gl : CachedGlyph) : ℤ := i32ofU32 gl.dimensions.1 + gl.origin.1

/-- The successive x offsets at which the second loop of Font::draw_text
places the glyphs: partial sums of the advances. -/
def xOffsets (start : ℤ) : List CachedGlyph → List ℤ
  | [] => []
  | gl :: rest => start :: xOffsets (start + advance gl) rest

/-- Stated from the spec's words, for comparison with the code: the minimum
(most negative) glyph-origin y-coordinate across the string's glyphs
(section 4.3 of the spec calls this the common baseline). -/
def specMinOriginY : List CachedGlyph → ℤ
  | [] => 0
  | gl :: rest => rest.foldl (fun m g2 => min m g2.origin.2) gl.origin.2

/-- A concrete test glyph: 1 by 1 raster with full coverage, origin (0, 5)
(a positive origin y, as produced for a typical ascender glyph positioned
at the ascent). -/
def glyphA : CachedGlyph := ⟨(1, 1), (0, 5), [1]⟩

/-- A concrete test font whose cache holds only the character a. -/
def fontA : Font := ⟨fun ch => if ch = 'a' then some glyphA else none, fun _ => glyphA, 32⟩

/-- Concrete black. -/
def bk : Color := ⟨0, 0, 0⟩

/-- Concrete white. -/
def wt : Color := ⟨1, 1, 1⟩

/-- A concrete 3 by 8 all-black viewport. -/
def buf0 : Buffer := ⟨3, 8, fun _ => bk⟩

/-- A concrete 10 by 4 all-black viewport. -/
def bufB : Buffer := ⟨10, 4, fun _ => bk⟩

/-- A concrete 8 by 1 graphics surface, stride 32 bytes, zeroed buffer,
white foreground. -/
def g1 : Graphics := ⟨8, 1, 32, List.replicate 32 0, ⟨0, 0, 0⟩, ⟨255, 255, 255⟩⟩

/-! Helper lemmas: the collection pass and the glyph cache. -/

theorem collect_ok_of_cached (f : Font) (s : List Char)
    (h : ∀ ch ∈ s, (f.glyphs ch).isSome) : ∃ gs, f.collect s = .ok gs := by
  induction s with
  | nil => exact ⟨[], rfl⟩
  | cons a rest ih =>
    obtain ⟨gl, hgl⟩ := Option.isSome_iff_exists.mp (h a (by simp))
    obtain ⟨gs, hgs⟩ := ih fun ch hch => h ch (by simp [hch])
    exact ⟨gl :: gs, by simp [Font.collect, hgl, hgs, Except.map]⟩

theorem collect_error_of_uncached (f : Font) (s : List Char)
    (h : ¬ ∀ ch ∈ s, (f.glyphs ch).isSome) :
    ∃ ch, ch ∈ s ∧ f.glyphs ch = none ∧ f.collect s = .error (.GlyphNotInCache ch) := by
  induction s with
  | nil => exact absurd (by simp) h
  | cons a rest ih =>
    cases ha : f.glyphs a with
    | none => exact ⟨a, by simp, ha, by simp [Font.collect, ha]⟩
    | some gl =>
      have hrest : ¬ ∀ ch ∈ rest, (f.glyphs ch).isSome := by
        intro hall
        apply h
        intro ch hch
        rcases List.mem_cons.mp hch with rfl | hm
        · simp [ha]
        · exact hall ch hm
      obtain ⟨ch, hm, hn, hc⟩ := ih hrest
      exact ⟨ch, by simp [hm], hn, by simp [Font.collect, ha, hc, Except.map]⟩

theorem addStr_glyphs_mono (f : Font) (s : List Char) (ch : Char)
    (h : (f.glyphs ch).isSome) : ((f.addStrToCache s).glyphs ch).isSome := by
  induction s generalizing f with
  | nil => exact h
  | cons a rest ih =>
    simp only [Font.addStrToCache]
    split
    · exact ih f h
    · apply ih
      by_cases hca : ch = a
      · subst hca; simp
      · simpa [hca] using h

theorem addStr_cached (f : Font) (s : List Char) :
    ∀ ch ∈ s, ((f.addStrToCache s).glyphs ch).isSome := by
  induction s generalizing f with
  | nil => simp
  | cons a rest ih =>
    intro ch hch
    simp only [Font.addStrToCache]
    rcases List.mem_cons.mp hch with rfl | hm
    · apply addStr_glyphs_mono
      split
      · assumption
      · simp
    · exact ih _ ch hm

theorem addStr_of_all_cached (f : Font) (s : List Char)
    (h : ∀ ch ∈ s, (f.glyphs ch).isSome) : f.addStrToCache s = f := by
  induction s generalizing f with
  | nil => rfl
  | cons a rest ih =>
    have ha := h a (by simp)
    simp only [Font.addStrToCache, ha, if_true]
    exact ih f fun ch hch => h ch (by simp [hch])

/-- Claim C1: on a string whose characters are all cached, draw_text
succeeds; if any character is uncached, draw_text returns the
GlyphNotInCache error for an uncached character of the string and leaves
the viewport's pixels completely unchanged (zero pixel writes, no partial
rendering). -/
theorem drawText_cache_gate (f : Font) (buf : Buffer) (bg c : Color) (s : List Char) :
    ((∀ ch ∈ s, (f.glyphs ch).isSome) → (f.drawText buf bg c s).1.isOk = true) ∧
    ((¬ ∀ ch ∈ s, (f.glyphs ch).isSome) →
      ∃ ch, ch ∈ s ∧ f.glyphs ch = none ∧
        f.drawText buf bg c s = (.error (.GlyphNotInCache ch), buf)) := by
  constructor
  · intro h
    obtain ⟨gs, hgs⟩ := collect_ok_of_cached f s h
    simp [Font.drawText, hgs, Except.isOk, Except.toBool]
  · intro h
    obtain ⟨ch, hm, hn, hc⟩ := collect_error_of_uncached f s h
    exact ⟨ch, hm, hn, by simp [Font.drawText, hc]⟩

/-- Witness for C1 at a concrete font, buffer and strings. -/
theorem drawText_cache_gate_witness :
    (fontA.drawText buf0 bk wt ['a']).1.isOk = true ∧
    (∃ ch, ch ∈ ['a', 'b'] ∧ fontA.glyphs ch = none ∧
      fontA.drawText buf0 bk wt ['a', 'b'] = (.error (.GlyphNotInCache ch), buf0)) :=
  ⟨(drawText_cache_gate fontA buf0 bk wt ['a']).1 (by decide),
   (drawText_cache_gate fontA buf0 bk wt ['a', 'b']).2 (by decide)⟩

/-- Claim C3: add_str_to_cache is idempotent, and any subsequent draw_text
produces unchanged output. -/
theorem addStrToCache_idem (f : Font) (s : List Char) :
    (f.addStrToCache s).addStrToCache s = f.addStrToCache s ∧
    ∀ (buf : Buffer) (bg c : Color) (t : List Char),
      ((f.addStrToCache s).addStrToCache s).drawText buf bg c t =
        (f.addStrToCache s).drawText buf bg c t := by
  have h1 : (f.addStrToCache s).addStrToCache s = f.addStrToCache s :=
    addStr_of_all_cached _ s (addStr_cached f s)
  exact ⟨h1, fun buf bg c t => by rw [h1]⟩

/-- Claim C4: auto_draw_text behaves exactly as add_str_to_cache followed by
draw_text on the cache-extended font, and it never returns the
GlyphNotInCache error, for any input string. -/
theorem autoDrawText_spec (f : Font) (buf : Buffer) (bg c : Color) (s : List Char) :
    f.autoDrawText buf bg c s =
      ((f.addStrToCache s).drawText buf bg c s, f.addStrToCache s) ∧
    (f.autoDrawText buf bg c s).1.1.isOk = true := by
  refine ⟨rfl, ?_⟩
  obtain ⟨gs, hgs⟩ := collect_ok_of_cached (f.addStrToCache s) s (addStr_cached f s)
  simp [Font.autoDrawText, Font.drawText, hgs, Except.isOk, Except.toBool]

/-! Helper lemmas: clamped linear interpolation on one channel. -/

theorem clamp01_mono {a b : ℚ} (h : a ≤ b) : clamp01 a ≤ clamp01 b :=
  max_le_max le_rfl (min_le_min le_rfl h)

theorem clamp01_nonneg (a : ℚ) : 0 ≤ clamp01 a := le_max_left 0 _

theorem clamp01_le_one (a : ℚ) : clamp01 a ≤ 1 :=
  max_le (by norm_num) (min_le_left 1 a)

theorem lerpChan_mono {x y a b : ℚ} (hxy : x ≤ y) (hab : a ≤ b) :
    x * (1 - clamp01 a) + y * clamp01 a ≤ x * (1 - clamp01 b) + y * clamp01 b := by
  have hc := clamp01_mono hab
  nlinarith [mul_le_mul_of_nonneg_left hc (sub_nonneg.mpr hxy)]

theorem lerpChan_anti {x y a b : ℚ} (hyx : y ≤ x) (hab : a ≤ b) :
    x * (1 - clamp01 b) + y * clamp01 b ≤ x * (1 - clamp01 a) + y * clamp01 a := by
  have hc := clamp01_mono hab
  nlinarith [mul_le_mul_of_nonneg_left hc (sub_nonneg.mpr hyx)]

theorem lerpChan_lower {x y : ℚ} (a : ℚ) :
    min x y ≤ x * (1 - clamp01 a) + y * clamp01 a := by
  have h0 := clamp01_nonneg a
  have h1 := clamp01_le_one a
  rcases le_total x y with hxy | hxy
  · rw [min_eq_left hxy]
    nlinarith [mul_nonneg (sub_nonneg.mpr hxy) h0]
  · rw [min_eq_right hxy]
    nlinarith [mul_nonneg (sub_nonneg.mpr hxy) (sub_nonneg.mpr h1)]

theorem lerpChan_upper {x y : ℚ} (a : ℚ) :
    x * (1 - clamp01 a) + y * clamp01 a ≤ max x y := by
  have h0 := clamp01_nonneg a
  have h1 := clamp01_le_one a
  rcases le_total x y with hxy | hxy
  · rw [max_eq_right hxy]
    nlinarith [mul_nonneg (sub_nonneg.mpr hxy) (sub_nonneg.mpr h1)]
  · rw [max_eq_left hxy]
    nlinarith [mul_nonneg (sub_nonneg.mpr hxy) h0]

/-- Claim C5: blend(bg, fg, 0) = bg and blend(bg, fg, 1) = fg; each blended
channel is monotonic in alpha (increasing towards fg when fg is above bg on
that channel, decreasing when below); every blended channel stays between
the two endpoint channels for every alpha, clamped rather than under- or
overflowed. -/
theorem blend_contracts (bg fg : Color) :
    bg.blend fg 0 = bg ∧ bg.blend fg 1 = fg ∧
    (∀ a b : ℚ, a ≤ b →
      ((bg.r ≤ fg.r → (bg.blend fg a).r ≤ (bg.blend fg b).r) ∧
       (fg.r ≤ bg.r → (bg.blend fg b).r ≤ (bg.blend fg a).r)) ∧
      ((bg.g ≤ fg.g → (bg.blend fg a).g ≤ (bg.blend fg b).g) ∧
       (fg.g ≤ bg.g → (bg.blend fg b).g ≤ (bg.blend fg a).g)) ∧
      ((bg.b ≤ fg.b → (bg.blend fg a).b ≤ (bg.blend fg b).b) ∧
       (fg.b ≤ bg.b → (bg.blend fg b).b ≤ (bg.blend fg a).b))) ∧
    ∀ a : ℚ,
      min bg.r fg.r ≤ (bg.blend fg a).r ∧ (bg.blend fg a).r ≤ max bg.r fg.r ∧
      min bg.g fg.g ≤ (bg.blend fg a).g ∧ (bg.blend fg a).g ≤ max bg.g fg.g ∧
      min bg.b fg.b ≤ (bg.blend fg a).b ∧ (bg.blend fg a).b ≤ max bg.b fg.b := by
  have hc0 : clamp01 0 = 0 := by norm_num [clamp01]
  have hc1 : clamp01 1 = 1 := by norm_num [clamp01]
  refine ⟨?_, ?_, ?_, ?_⟩
  · cases bg
    norm_num [Color.blend, hc0]
  · cases fg
    norm_num [Color.blend, hc1]
  · intro a b hab
    exact ⟨⟨fun h => lerpChan_mono h hab, fun h => lerpChan_anti h hab⟩,
           ⟨fun h => lerpChan_mono h hab, fun h => lerpChan_anti h hab⟩,
           ⟨fun h => lerpChan_mono h hab, fun h => lerpChan_anti h hab⟩⟩
  · intro a
    exact ⟨lerpChan_lower a, lerpChan_upper a, lerpChan_lower a, lerpChan_upper a,
           lerpChan_lower a, lerpChan_upper a⟩

/-- Witness for C5 at concrete colors and alphas. -/
theorem blend_contracts_witness :
    bk.blend wt 0 = bk ∧ (bk.blend wt 0).r ≤ (bk.blend wt 1).r :=
  ⟨(blend_contracts bk wt).1,
   (((blend_contracts bk wt).2.2.1 0 1 zero_le_one).1).1 zero_le_one⟩

/-! Helper lemmas: structure of the drawing pass and the baseline fold. -/

theorem drawGlyphs_cons (bg c : Color) (off : ℤ) (gl : CachedGlyph) (rest : List CachedGlyph)
    (xOff : ℤ) (buf : Buffer) :
    drawGlyphs bg c off (gl :: rest) xOff buf =
      drawGlyphs bg c off rest (xOff + i32ofU32 gl.dimensions.1 + gl.origin.1)
        (gl.draw buf (xOff, -off) bg c) := rfl

theorem drawGlyphs_eq (bg c : Color) (off : ℤ) (gs : List CachedGlyph) :
    ∀ (xOff : ℤ) (buf : Buffer),
      drawGlyphs bg c off gs xOff buf =
        (xOff + (gs.map advance).sum,
         (gs.zip (xOffsets xOff gs)).foldl (fun b p => p.1.draw b (p.2, -off) bg c) buf) := by
  induction gs with
  | nil =>
    intro xOff buf
    show (xOff, buf) = (xOff + (([] : List CachedGlyph).map advance).sum, _)
    rw [List.map_nil, List.sum_nil, add_zero]
    rfl
  | cons gl rest ih =>
    intro xOff buf
    rw [drawGlyphs_cons, ih,
      show xOff + i32ofU32 gl.dimensions.1 + gl.origin.1 = xOff + advance gl from
        add_assoc xOff (i32ofU32 gl.dimensions.1) gl.origin.1,
      List.map_cons, List.sum_cons,
      show xOffsets xOff (gl :: rest) = xOff :: xOffsets (xOff + advance gl) rest from rfl,
      List.zip_cons_cons, List.foldl_cons]
    exact Prod.ext (add_assoc xOff (advance gl) _) rfl

theorem baselineOff_foldl_min (gs : List CachedGlyph) :
    baselineOff gs = gs.foldl (fun m gl => min m gl.origin.2) 0 := by
  unfold baselineOff
  congr 1
  funext m gl
  by_cases h : gl.origin.2 < m
  · rw [if_pos h, min_eq_right h.le]
  · rw [if_neg h, min_eq_left (le_of_not_lt h)]

theorem foldl_min_shift (rest : List CachedGlyph) :
    ∀ a b : ℤ, rest.foldl (fun m gl => min m gl.origin.2) (min a b) =
      min a (rest.foldl (fun m gl => min m gl.origin.2) b) := by
  induction rest with
  | nil => intro a b; rfl
  | cons gl rs ih =>
    intro a b
    rw [List.foldl_cons, List.foldl_cons]
    show List.foldl _ (min (min a b) gl.origin.2) rs = _
    rw [min_assoc, ih]

theorem baselineOff_eq_min (gs : List CachedGlyph) :
    baselineOff gs = min 0 (specMinOriginY gs) := by
  cases gs with
  | nil => rfl
  | cons gl rest =>
    rw [baselineOff_foldl_min, List.foldl_cons]
    show List.foldl _ (min 0 gl.origin.2) rest = min 0 (specMinOriginY (gl :: rest))
    rw [foldl_min_shift rest 0 gl.origin.2]
    rfl

/-- Claim C2 (amended): for a fully cached string, draw_text renders the
glyphs left to right at x offsets that are the partial sums of the advances
(glyph width plus horizontal origin offset), all at the common vertical
offset -off where off = min(0, minimum glyph-origin y): the baseline
variable starts at 0 and only decreases, so it is the minimum of 0 and the
glyph origins, not the bare minimum origin y. The returned pair is (sum of
advances cast to u32, pixel size truncated to u32 — 32 for a 32-pixel
font), and the returned width is positive whenever the advance sum is
positive and below 2^32. -/
theorem drawText_layout (f : Font) (buf : Buffer) (bg c : Color) (s : List Char)
    (gs : List CachedGlyph) (h : f.collect s = .ok gs) :
    f.drawText buf bg c s =
      (.ok (u32cast ((gs.map advance).sum), f32toU32 f.size),
       (gs.zip (xOffsets 0 gs)).foldl
         (fun b p => p.1.draw b (p.2, -(min 0 (specMinOriginY gs))) bg c) buf) ∧
    (0 < (gs.map advance).sum → (gs.map advance).sum < 2 ^ 32 →
      0 < u32cast ((gs.map advance).sum)) := by
  constructor
  · show (match f.collect s with
      | Except.error e => (Except.error e, buf)
      | Except.ok gs =>
        let st := drawGlyphs bg c (baselineOff gs) gs 0 buf
        ((Except.ok (u32cast st.1, f32toU32 f.size) : Except DrawError (ℕ × ℕ)), st.2)) = _
    rw [h]
    show ((Except.ok (u32cast (drawGlyphs bg c (baselineOff gs) gs 0 buf).1, f32toU32 f.size) :
        Except DrawError (ℕ × ℕ)),
      (drawGlyphs bg c (baselineOff gs) gs 0 buf).2) = _
    rw [baselineOff_eq_min, drawGlyphs_eq, zero_add]
  · intro h1 h2
    unfold u32cast
    omega

/-- Witness for C2 (amended) at a concrete font and string: width 1,
height 32 for the 32-pixel test font. -/
theorem drawText_layout_witness :
    fontA.collect ['a'] = .ok [glyphA] ∧
    (fontA.drawText buf0 bk wt ['a']).1 = .ok (1, 32) ∧
    0 < u32cast (([glyphA].map advance).sum) := by
  have h : fontA.collect ['a'] = .ok [glyphA] := by decide
  refine ⟨h, ?_, (drawText_layout fontA buf0 bk wt ['a'] [glyphA] h).2 (by decide) (by decide)⟩
  rw [(drawText_layout fontA buf0 bk wt ['a'] [glyphA] h).1]
  decide

/-- Counterexample for C2 as stated: at a cache whose single glyph has
origin y = 5, the baseline quantity the code computes is 0, not the minimum
glyph-origin y-coordinate 5; consequently draw_text writes the glyph
coverage at y = 5, and the pixel at y = 0 — where a min-origin baseline
would place it — keeps the background color. -/
theorem drawText_baseline_cex :
    baselineOff [glyphA] ≠ specMinOriginY [glyphA] ∧
    (fontA.drawText buf0 bk wt ['a']).2.pixels (0, 5) = wt ∧
    (fontA.drawText buf0 bk wt ['a']).2.pixels (0, 0) = bk ∧ bk ≠ wt := by
  refine ⟨by decide, ?_, ?_, by decide⟩ <;>
    norm_num [Font.drawText, Font.collect, Except.map, drawGlyphs, CachedGlyph.draw,
      List.foldl, Buffer.putIgnore, Buffer.put, writePixel, Color.blend, clamp01, baselineOff,
      u32cast, i32ofU32, fontA, glyphA, buf0, bk, wt] <;> decide

/-! Helper lemmas: bounds-checked puts and the two draw_box loops. -/

theorem put_ok (b : Buffer) (pos : ℕ × ℕ) (c : Color)
    (h : pos.1 < b.width ∧ pos.2 < b.height) :
    b.put pos c = .ok (writePixel b pos c) := by
  unfold Buffer.put
  rw [if_pos h]

theorem putIgnore_ok (b : Buffer) (pos : ℕ × ℕ) (c : Color)
    (h : pos.1 < b.width ∧ pos.2 < b.height) :
    b.putIgnore pos c = writePixel b pos c := by
  unfold Buffer.putIgnore
  rw [put_ok b pos c h]

theorem putIgnore_width (b : Buffer) (pos : ℕ × ℕ) (c : Color) :
    (b.putIgnore pos c).width = b.width := by
  by_cases h : pos.1 < b.width ∧ pos.2 < b.height <;>
    simp [Buffer.putIgnore, Buffer.put, writePixel, h]

theorem putIgnore_height (b : Buffer) (pos : ℕ × ℕ) (c : Color) :
    (b.putIgnore pos c).height = b.height := by
  by_cases h : pos.1 < b.width ∧ pos.2 < b.height <;>
    simp [Buffer.putIgnore, Buffer.put, writePixel, h]

theorem putIgnore_pixels (b : Buffer) (pos : ℕ × ℕ) (c : Color)
    (h : pos.1 < b.width ∧ pos.2 < b.height) (q : ℕ × ℕ) :
    (b.putIgnore pos c).pixels q = if q = pos then c else b.pixels q := by
  rw [putIgnore_ok b pos c h]
  rfl

theorem checkedSub_one (d : ℕ) (hd : 1 ≤ d) : checkedSub d 1 = some (d - 1) := by
  unfold checkedSub
  rw [if_pos hd]

theorem boxRows_spec (c : Color) (d1 : ℕ) (hd1 : 1 ≤ d1) :
    ∀ (xs : List ℕ) (buf : Buffer), (∀ x ∈ xs, x < buf.width) → d1 ≤ buf.height →
      ∃ b2, boxRows c d1 xs buf = some b2 ∧
        b2.width = buf.width ∧ b2.height = buf.height ∧
        ∀ p : ℕ × ℕ, b2.pixels p =
          if (p.2 = 0 ∨ p.2 = d1 - 1) ∧ p.1 ∈ xs then c else buf.pixels p := by
  intro xs
  induction xs with
  | nil =>
    intro buf hxs hh
    exact ⟨buf, rfl, rfl, rfl, fun p => by simp⟩
  | cons x xs ih =>
    intro buf hxs hh
    have hx : x < buf.width := hxs x (List.mem_cons_self x xs)
    have h0 : (0 : ℕ) < buf.height := lt_of_lt_of_le hd1 hh
    have hd1' : d1 - 1 < buf.height := lt_of_lt_of_le (Nat.sub_lt hd1 Nat.one_pos) hh
    have hin1 : (x, (0 : ℕ)).1 < buf.width ∧ (x, (0 : ℕ)).2 < buf.height := ⟨hx, h0⟩
    have hin2 : (x, d1 - 1).1 < (buf.putIgnore (x, 0) c).width ∧
        (x, d1 - 1).2 < (buf.putIgnore (x, 0) c).height := by
      rw [putIgnore_width, putIgnore_height]
      exact ⟨hx, hd1'⟩
    obtain ⟨b2, hrec, hw, hhh, hpix⟩ :=
      ih ((buf.putIgnore (x, 0) c).putIgnore (x, d1 - 1) c)
        (fun z hz => by
          rw [putIgnore_width, putIgnore_width]
          exact hxs z (List.mem_cons_of_mem x hz))
        (by rw [putIgnore_height, putIgnore_height]; exact hh)
    refine ⟨b2, ?_, ?_, ?_, ?_⟩
    · show (checkedSub d1 1).bind
        (fun bot => boxRows c d1 xs ((buf.putIgnore (x, 0) c).putIgnore (x, bot) c)) = some b2
      rw [checkedSub_one d1 hd1]
      exact hrec
    · rw [hw, putIgnore_width, putIgnore_width]
    · rw [hhh, putIgnore_height, putIgnore_height]
    · intro p
      rw [hpix p, putIgnore_pixels _ _ _ hin2 p, putIgnore_pixels _ _ _ hin1 p]
      simp only [Prod.ext_iff, List.mem_cons]
      split_ifs <;> first | rfl | tauto

theorem boxCols_spec (c : Color) (d0 : ℕ) (hd0 : 1 ≤ d0) :
    ∀ (ys : List ℕ) (buf : Buffer), (∀ y ∈ ys, y < buf.height) → d0 ≤ buf.width →
      ∃ b2, boxCols c d0 ys buf = some (.ok b2) ∧
        b2.width = buf.width ∧ b2.height = buf.height ∧
        ∀ p : ℕ × ℕ, b2.pixels p =
          if (p.1 = 0 ∨ p.1 = d0 - 1) ∧ p.2 ∈ ys then c else buf.pixels p := by
  intro ys
  induction ys with
  | nil =>
    intro buf hys hw
    exact ⟨buf, rfl, rfl, rfl, fun p => by simp⟩
  | cons y ys ih =>
    intro buf hys hw
    have hy : y < buf.height := hys y (List.mem_cons_self y ys)
    have h0 : (0 : ℕ) < buf.width := lt_of_lt_of_le hd0 hw
    have hd0' : d0 - 1 < buf.width := lt_of_lt_of_le (Nat.sub_lt hd0 Nat.one_pos) hw
    have hin1 : ((0 : ℕ), y).1 < buf.width ∧ ((0 : ℕ), y).2 < buf.height := ⟨h0, hy⟩
    have hin2 : (d0 - 1, y).1 < (writePixel buf (0, y) c).width ∧
        (d0 - 1, y).2 < (writePixel buf (0, y) c).height := ⟨hd0', hy⟩
    obtain ⟨b2, hrec, hww, hhh, hpix⟩ :=
      ih (writePixel (writePixel buf (0, y) c) (d0 - 1, y) c)
        (fun z hz => hys z (List.mem_cons_of_mem y hz)) hw
    refine ⟨b2, ?_, hww, hhh, ?_⟩
    · show (match buf.put (0, y) c with
        | Except.error e => some (Except.error e)
        | Except.ok b1 => (checkedSub d0 1).bind fun rt =>
            match b1.put (rt, y) c with
            | Except.error e => some (Except.error e)
            | Except.ok b2 => boxCols c d0 ys b2) = some (Except.ok b2)
      rw [put_ok buf (0, y) c hin1]
      show (checkedSub d0 1).bind (fun rt =>
        match (writePixel buf (0, y) c).put (rt, y) c with
        | Except.error e => some (Except.error e)
        | Except.ok b2 => boxCols c d0 ys b2) = some (Except.ok b2)
      rw [checkedSub_one d0 hd0]
      show (match (writePixel buf (0, y) c).put (d0 - 1, y) c with
        | Except.error e => some (Except.error e)
        | Except.ok b2 => boxCols c d0 ys b2) = some (Except.ok b2)
      rw [put_ok (writePixel buf (0, y) c) (d0 - 1, y) c hin2]
      exact hrec
    · intro p
      rw [hpix p]
      show (if (p.1 = 0 ∨ p.1 = d0 - 1) ∧ p.2 ∈ ys then c
        else (if p = (d0 - 1, y) then c else if p = (0, y) then c else buf.pixels p)) = _
      simp only [Prod.ext_iff, List.mem_cons]
      split_ifs <;> first | rfl | tauto

/-- Claim C6 (amended): under positive dimensions that fit in the viewport,
draw_box succeeds and writes the given color to exactly the 1-pixel border
(top row, bottom row, left column, right column) leaving every other pixel
untouched; for 10 by 4 dimensions the border consists of exactly 24
distinct pixels. -/
theorem drawBox_border (buf : Buffer) (c : Color) (d0 d1 : ℕ)
    (h0 : 0 < d0) (h1 : 0 < d1) (hw : d0 ≤ buf.width) (hh : d1 ≤ buf.height) :
    (∃ b2, drawBox buf c (d0, d1) = some (.ok b2) ∧
      b2.width = buf.width ∧ b2.height = buf.height ∧
      ∀ p : ℕ × ℕ, b2.pixels p = if onBorder d0 d1 p = true then c else buf.pixels p) ∧
    borderCount 10 4 = 24 := by
  obtain ⟨bR, hR, hRw, hRh, hRpix⟩ := boxRows_spec c d1 h1 (List.range d0) buf
    (fun z hz => lt_of_lt_of_le (List.mem_range.mp hz) hw) hh
  obtain ⟨b2, hC, hCw, hCh, hCpix⟩ := boxCols_spec c d0 h0 (List.range d1) bR
    (fun z hz => by rw [hRh]; exact lt_of_lt_of_le (List.mem_range.mp hz) hh)
    (by rw [hRw]; exact hw)
  refine ⟨⟨b2, ?_, by rw [hCw, hRw], by rw [hCh, hRh], ?_⟩, by decide⟩
  · show (boxRows c d1 (List.range d0) buf).bind
      (fun b1 => boxCols c d0 (List.range d1) b1) = some (Except.ok b2)
    rw [hR]
    exact hC
  · intro p
    rw [hCpix p, hRpix p]
    simp only [List.mem_range, onBorder, Bool.and_eq_true, Bool.or_eq_true, decide_eq_true_eq]
    split_ifs <;> first | rfl | omega

/-- Witness for C6 (amended) at a 10 by 4 viewport and 10 by 4 dimensions. -/
theorem drawBox_border_witness :
    ∃ b2, drawBox bufB wt (10, 4) = some (.ok b2) ∧
      b2.width = bufB.width ∧ b2.height = bufB.height ∧
      ∀ p : ℕ × ℕ, b2.pixels p = if onBorder 10 4 p = true then wt else bufB.pixels p :=
  (drawBox_border bufB wt 10 4 (by decide) (by decide) (by decide) (by decide)).1

/-- Counterexample for C6 as stated: a 10 by 4 border consists of 24
distinct pixels, not 28 — the source performs 28 put calls but the four
corner pixels are each written twice; drawing the box on a 10 by 4 black
viewport leaves exactly 24 pixels in the border color. -/
theorem drawBox_count_cex :
    borderCount 10 4 ≠ 28 ∧ borderCount 10 4 = 24 ∧
    (match drawBox bufB wt (10, 4) with
     | some (.ok b2) => ((coords 10 4).filter fun p => decide (b2.pixels p = wt)).length
     | _ => 0) = 24 := by
  refine ⟨by decide, by decide, by decide⟩

theorem boxRows_isSome (c : Color) (d1 : ℕ) (hd1 : 1 ≤ d1) :
    ∀ (xs : List ℕ) (buf : Buffer), (boxRows c d1 xs buf).isSome = true := by
  intro xs
  induction xs with
  | nil => intro buf; rfl
  | cons x xs ih =>
    intro buf
    show ((checkedSub d1 1).bind fun bot =>
      boxRows c d1 xs ((buf.putIgnore (x, 0) c).putIgnore (x, bot) c)).isSome = true
    rw [checkedSub_one d1 hd1]
    exact ih _

theorem boxCols_isSome (c : Color) (d0 : ℕ) (hd0 : 1 ≤ d0) :
    ∀ (ys : List ℕ) (buf : Buffer), (boxCols c d0 ys buf).isSome = true := by
  intro ys
  induction ys with
  | nil => intro buf; rfl
  | cons y ys ih =>
    intro buf
    show (match buf.put (0, y) c with
      | Except.error e => some (Except.error e)
      | Except.ok b1 => (checkedSub d0 1).bind fun rt =>
          match b1.put (rt, y) c with
          | Except.error e => some (Except.error e)
          | Except.ok b2 => boxCols c d0 ys b2).isSome = true
    cases buf.put (0, y) c with
    | error e => rfl
    | ok b1 =>
      show ((checkedSub d0 1).bind fun rt =>
        match b1.put (rt, y) c with
        | Except.error e => some (Except.error e)
        | Except.ok b2 => boxCols c d0 ys b2).isSome = true
      rw [checkedSub_one d0 hd0]
      show (match b1.put (d0 - 1, y) c with
        | Except.error e => some (Except.error e)
        | Except.ok b2 => boxCols c d0 ys b2).isSome = true
      cases b1.put (d0 - 1, y) c with
      | error e => rfl
      | ok b2 => exact ih b2

/-- Claim C7 (amended): with both dimensions positive the closing-edge
subtractions never underflow; a zero height with positive width always
underflows; a zero width with positive height underflows provided the
viewport itself is nonempty (on an empty viewport the first put fails with
OutOfBounds before the subtraction is evaluated); with both dimensions
zero the loop bodies never execute, no subtraction is evaluated and
draw_box returns Ok without touching the buffer. -/
theorem drawBox_zero_dims (buf : Buffer) (c : Color) (d0 d1 : ℕ) :
    (0 < d0 → 0 < d1 → (drawBox buf c (d0, d1)).isSome = true) ∧
    (0 < d0 → d1 = 0 → drawBox buf c (d0, d1) = none) ∧
    (d0 = 0 → 0 < d1 → 0 < buf.width → 0 < buf.height → drawBox buf c (d0, d1) = none) ∧
    (d0 = 0 → d1 = 0 → drawBox buf c (d0, d1) = some (.ok buf)) := by
  refine ⟨?_, ?_, ?_, ?_⟩
  · intro h0 h1
    show ((boxRows c d1 (List.range d0) buf).bind fun b1 =>
      boxCols c d0 (List.range d1) b1).isSome = true
    obtain ⟨bR, hbR⟩ := Option.isSome_iff_exists.mp (boxRows_isSome c d1 h1 (List.range d0) buf)
    rw [hbR]
    exact boxCols_isSome c d0 h0 (List.range d1) bR
  · intro h0 h1
    subst h1
    obtain ⟨n, rfl⟩ : ∃ n, d0 = n + 1 := ⟨d0 - 1, by omega⟩
    show ((boxRows c 0 (List.range (n + 1)) buf).bind fun b1 =>
      boxCols c (n + 1) (List.range 0) b1) = none
    rw [List.range_succ_eq_map]
    rfl
  · intro h0 h1 hbw hbh
    subst h0
    obtain ⟨m, rfl⟩ : ∃ m, d1 = m + 1 := ⟨d1 - 1, by omega⟩
    show boxCols c 0 (List.range (m + 1)) buf = none
    rw [List.range_succ_eq_map]
    show (match buf.put (0, 0) c with
      | Except.error e => some (Except.error e)
      | Except.ok b1 => (checkedSub 0 1).bind fun rt =>
          match b1.put (rt, 0) c with
          | Except.error e => some (Except.error e)
          | Except.ok b2 => boxCols c 0 (List.map Nat.succ (List.range m)) b2) = none
    rw [put_ok buf (0, 0) c ⟨hbw, hbh⟩]
    rfl
  · intro h0 h1
    subst h0
    subst h1
    rfl

/-- Witness for C7 (amended) at a 10 by 4 viewport: positive dimensions
succeed, zero height underflows, zero width on a nonempty viewport
underflows. -/
theorem drawBox_zero_dims_witness :
    (drawBox bufB wt (10, 4)).isSome = true ∧ drawBox bufB wt (3, 0) = none ∧
    drawBox bufB wt (0, 3) = none :=
  ⟨(drawBox_zero_dims bufB wt 10 4).1 (by decide) (by decide),
   (drawBox_zero_dims bufB wt 3 0).2.1 (by decide) rfl,
   (drawBox_zero_dims bufB wt 0 3).2.2.1 rfl (by decide) (by decide) (by decide)⟩

/-- Counterexample for C7 as stated: with dimensions (0, 0) — a zero width
and a zero height — both loops of draw_box iterate zero times, the
closing-edge subtraction is never evaluated, and draw_box returns Ok with
the buffer untouched instead of underflowing. -/
theorem drawBox_zero_zero_cex : drawBox bufB wt (0, 0) = some (.ok bufB) := rfl

/-! Helper lemmas: the Bresenham loop of Graphics::draw_line. -/

theorem lineLoop_succ (x1 y1 dx dy sx sy : ℤ) (fuel : ℕ) (x y err : ℤ) :
    lineLoop x1 y1 dx dy sx sy (fuel + 1) x y err =
      if x = x1 ∧ y = y1 then some [(x, y)]
      else
        (lineLoop x1 y1 dx dy sx sy fuel
          (if dy ≤ 2 * err then x + sx else x)
          (if 2 * err ≤ dx then y + sy else y)
          (if 2 * err ≤ dx then (if dy ≤ 2 * err then err + dy else err) + dx
           else (if dy ≤ 2 * err then err + dy else err))).map ((x, y) :: ·) := rfl

theorem getLast_cons_ne (a : ℤ × ℤ) (l : List (ℤ × ℤ)) (h : l ≠ []) :
    (a :: l).getLast? = l.getLast? := by
  cases l with
  | nil => exact absurd rfl h
  | cons b bs => rfl

theorem mem_of_head_eq (l : List (ℤ × ℤ)) (a : ℤ × ℤ) (h : l.head? = some a) : a ∈ l := by
  cases l with
  | nil => simp at h
  | cons b bs =>
    simp only [List.head?_cons, Option.some.injEq] at h
    rw [← h]
    exact List.mem_cons_self b bs

theorem mem_of_getLast_eq (l : List (ℤ × ℤ)) (a : ℤ × ℤ) (h : l.getLast? = some a) : a ∈ l := by
  induction l with
  | nil => simp at h
  | cons b bs ih =>
    cases bs with
    | nil =>
      simp only [List.getLast?_singleton, Option.some.injEq] at h
      rw [← h]
      exact List.mem_cons_self b []
    | cons c cs =>
      rw [getLast_cons_ne b (c :: cs) (by simp)] at h
      exact List.mem_cons_of_mem b (ih h)

theorem lineLoop_total (x1 y1 dx dy sx sy : ℤ)
    (hdx : 0 ≤ dx) (hdy : dy ≤ 0) (hsx : sx = 1 ∨ sx = -1) (hsy : sy = 1 ∨ sy = -1) :
    ∀ (fuel : ℕ) (x y err : ℤ),
      0 ≤ sx * (x1 - x) → sx * (x1 - x) ≤ dx →
      0 ≤ sy * (y1 - y) → sy * (y1 - y) ≤ -dy →
      err = dx + dy - sx * (x1 - x) * dy - sy * (y1 - y) * dx →
      (sx * (x1 - x) + sy * (y1 - y)).toNat < fuel →
      ∃ tr, lineLoop x1 y1 dx dy sx sy fuel x y err = some tr ∧
        tr.head? = some (x, y) ∧ tr.getLast? = some (x1, y1) := by
  have hsx2 : sx * sx = 1 := by rcases hsx with rfl | rfl <;> norm_num
  have hsy2 : sy * sy = 1 := by rcases hsy with rfl | rfl <;> norm_num
  intro fuel
  induction fuel with
  | zero =>
    intro x y err _ _ _ _ _ hf
    exact absurd hf (Nat.not_lt_zero _)
  | succ fuel ih =>
    intro x y err hu0 hud hv0 hvd herr hf
    rw [lineLoop_succ]
    by_cases hxy : x = x1 ∧ y = y1
    · rw [if_pos hxy]
      exact ⟨[(x, y)], rfl, rfl, by rw [hxy.1, hxy.2]; simp⟩
    · rw [if_neg hxy]
      set u := sx * (x1 - x) with hu
      set v := sy * (y1 - y) with hv
      have hsxu : sx * u = x1 - x := by rw [hu, ← mul_assoc, hsx2, one_mul]
      have hsyv : sy * v = y1 - y := by rw [hv, ← mul_assoc, hsy2, one_mul]
      have hXu : sx * (x1 - (x + sx)) = u - 1 := by
        have h : sx * (x1 - (x + sx)) = sx * (x1 - x) - sx * sx := by ring
        rw [h, hsx2, ← hu]
      have hYv : sy * (y1 - (y + sy)) = v - 1 := by
        have h : sy * (y1 - (y + sy)) = sy * (y1 - y) - sy * sy := by ring
        rw [h, hsy2, ← hv]
      have hne : u ≠ 0 ∨ v ≠ 0 := by
        rcases not_and_or.mp hxy with hx | hy
        · left
          intro h0
          apply hx
          have h2 := hsxu
          rw [h0, mul_zero] at h2
          omega
        · right
          intro h0
          apply hy
          have h2 := hsyv
          rw [h0, mul_zero] at h2
          omega
      have hc1u : dy ≤ 2 * err → 1 ≤ u := by
        intro c1
        by_cases huz : 1 ≤ u
        · exact huz
        · exfalso
          have hu00 : u = 0 := by omega
          have hv1 : 1 ≤ v := by
            rcases hne with h | h
            · exact absurd hu00 h
            · omega
          have herr0 : err = dx + dy - v * dx := by rw [herr, hu00]; ring
          nlinarith [mul_nonneg hdx (by omega : (0 : ℤ) ≤ v - 1)]
      have hc2v : 2 * err ≤ dx → 1 ≤ v := by
        intro c2
        by_cases hvz : 1 ≤ v
        · exact hvz
        · exfalso
          have hv00 : v = 0 := by omega
          have hu1 : 1 ≤ u := by
            rcases hne with h | h
            · omega
            · exact absurd hv00 h
          have herr0 : err = dx + dy - u * dy := by rw [herr, hv00]; ring
          nlinarith [mul_nonneg (by omega : (0 : ℤ) ≤ -dy) (by omega : (0 : ℤ) ≤ u - 1)]
      split_ifs with c1 c2 c2
      · -- x and y both advance
        have hu1 := hc1u c1
        have hv1 := hc2v c2
        obtain ⟨tr2, htr2, hh2, hl2⟩ := ih (x + sx) (y + sy) (err + dy + dx)
          (by rw [hXu]; omega) (by rw [hXu]; omega)
          (by rw [hYv]; omega) (by rw [hYv]; omega)
          (by rw [hXu, hYv, herr]; ring)
          (by rw [hXu, hYv]; omega)
        refine ⟨(x, y) :: tr2, by rw [htr2]; rfl, rfl, ?_⟩
        have hne2 : tr2 ≠ [] := by
          intro hemp
          rw [hemp] at hh2
          simp at hh2
        rw [getLast_cons_ne _ _ hne2]
        exact hl2
      · -- only x advances
        have hu1 := hc1u c1
        obtain ⟨tr2, htr2, hh2, hl2⟩ := ih (x + sx) y (err + dy)
          (by rw [hXu]; omega) (by rw [hXu]; omega)
          hv0 hvd
          (by rw [hXu, herr]; ring)
          (by rw [hXu]; omega)
        refine ⟨(x, y) :: tr2, by rw [htr2]; rfl, rfl, ?_⟩
        have hne2 : tr2 ≠ [] := by
          intro hemp
          rw [hemp] at hh2
          simp at hh2
        rw [getLast_cons_ne _ _ hne2]
        exact hl2
      · -- only y advances
        have hv1 := hc2v c2
        obtain ⟨tr2, htr2, hh2, hl2⟩ := ih x (y + sy) (err + dx)
          hu0 hud
          (by rw [hYv]; omega) (by rw [hYv]; omega)
          (by rw [hYv, herr]; ring)
          (by rw [hYv]; omega)
        refine ⟨(x, y) :: tr2, by rw [htr2]; rfl, rfl, ?_⟩
        have hne2 : tr2 ≠ [] := by
          intro hemp
          rw [hemp] at hh2
          simp at hh2
        rw [getLast_cons_ne _ _ hne2]
        exact hl2
      · -- impossible: neither step taken
        exfalso
        omega

theorem lineTrace_spec (x0 y0 x1 y1 : ℤ) :
    ∃ tr, lineTrace x0 y0 x1 y1 = some tr ∧
      tr.head? = some (x0, y0) ∧ tr.getLast? = some (x1, y1) := by
  have hdx : (0 : ℤ) ≤ |x1 - x0| := abs_nonneg _
  have hdy : -|y1 - y0| ≤ 0 := neg_nonpos.mpr (abs_nonneg _)
  have hsx : (if x0 < x1 then (1 : ℤ) else -1) = 1 ∨ (if x0 < x1 then (1 : ℤ) else -1) = -1 := by
    split
    · exact Or.inl rfl
    · exact Or.inr rfl
  have hsy : (if y0 < y1 then (1 : ℤ) else -1) = 1 ∨ (if y0 < y1 then (1 : ℤ) else -1) = -1 := by
    split
    · exact Or.inl rfl
    · exact Or.inr rfl
  have hu : (if x0 < x1 then (1 : ℤ) else -1) * (x1 - x0) = |x1 - x0| := by
    split
    · rw [one_mul, abs_of_pos (by omega : (0 : ℤ) < x1 - x0)]
    · rw [abs_of_nonpos (by omega : x1 - x0 ≤ 0)]
      ring
  have hv : (if y0 < y1 then (1 : ℤ) else -1) * (y1 - y0) = |y1 - y0| := by
    split
    · rw [one_mul, abs_of_pos (by omega : (0 : ℤ) < y1 - y0)]
    · rw [abs_of_nonpos (by omega : y1 - y0 ≤ 0)]
      ring
  obtain ⟨tr, htr, hh, hl⟩ := lineLoop_total x1 y1 |x1 - x0| (-|y1 - y0|)
    (if x0 < x1 then 1 else -1) (if y0 < y1 then 1 else -1) hdx hdy hsx hsy
    (lineFuel x0 y0 x1 y1) x0 y0 (|x1 - x0| + -|y1 - y0|)
    (by rw [hu]; exact hdx) (le_of_eq hu)
    (by rw [hv]; exact abs_nonneg _) (by rw [hv, neg_neg])
    (by rw [hu, hv]; ring)
    (by
      rw [hu, hv]
      unfold lineFuel
      have h1 : |x1 - x0| = ((x1 - x0).natAbs : ℤ) := Int.abs_eq_natAbs _
      have h2 : |y1 - y0| = ((y1 - y0).natAbs : ℤ) := Int.abs_eq_natAbs _
      omega)
  exact ⟨tr, htr, hh, hl⟩

/-- Claim C10: the Bresenham loop of Graphics::draw_line terminates for
every pair of integer endpoints: on each iteration at least one coordinate
strictly advances toward the target, so with fuel one larger than the
taxicab distance the loop always reaches its break condition, and
draw_line produces a result. -/
theorem drawLine_terminates (g : Graphics) (x0 y0 x1 y1 : ℤ) :
    (lineTrace x0 y0 x1 y1).isSome = true ∧ (g.drawLine x0 y0 x1 y1).isSome = true := by
  obtain ⟨tr, htr, _, _⟩ := lineTrace_spec x0 y0 x1 y1
  constructor
  · rw [htr]
    rfl
  · show ((lineTrace x0 y0 x1 y1).map fun tr =>
      tr.foldl (fun gg p => gg.putPixel p.1 p.2) g).isSome = true
    rw [htr]
    rfl

/-- Claim C8: draw_line is integer Bresenham, sign-aware in both axes; for
every pair of endpoints the trace of put_pixel calls starts at (x0, y0) and
ends at (x1, y1), so both endpoints are always written; draw_line(0,0,5,0)
writes exactly the six pixels (0,0) through (5,0), all at y = 0 — shown both
as the exact trace and by the exact bytes written on a concrete surface. -/
theorem drawLine_writes :
    (∀ x0 y0 x1 y1 : ℤ, ∃ tr, lineTrace x0 y0 x1 y1 = some tr ∧
      (x0, y0) ∈ tr ∧ (x1, y1) ∈ tr) ∧
    lineTrace 0 0 5 0 = some [(0, 0), (1, 0), (2, 0), (3, 0), (4, 0), (5, 0)] ∧
    g1.drawLine 0 0 5 0 =
      some ⟨8, 1, 32, List.replicate 24 255 ++ List.replicate 8 0, ⟨0, 0, 0⟩, ⟨255, 255, 255⟩⟩ := by
  refine ⟨?_, by decide, by decide⟩
  intro x0 y0 x1 y1
  obtain ⟨tr, htr, hh, hl⟩ := lineTrace_spec x0 y0 x1 y1
  exact ⟨tr, htr, mem_of_head_eq tr _ hh, mem_of_getLast_eq tr _ hl⟩

/-- Claim C9: put_pixel on any out-of-range coordinate (negative, or at or
beyond the width or height) returns normally and leaves the Graphics state,
including the byte buffer, completely unchanged: out-of-bounds writes are
silently clipped, never performed and never reported. -/
theorem putPixel_oob (g : Graphics) (x y : ℤ)
    (h : x < 0 ∨ y < 0 ∨ (g.width : ℤ) ≤ x ∨ (g.height : ℤ) ≤ y) :
    g.putPixel x y = g := by
  have hc : x < 0 ∨ y < 0 ∨ g.width ≤ x.toNat ∨ g.height ≤ y.toNat := by omega
  unfold Graphics.putPixel
  rw [if_pos hc]

/-- Witness for C9 at concrete out-of-range coordinates on the concrete
8 by 1 surface. -/
theorem putPixel_oob_witness : g1.putPixel (-1) 0 = g1 ∧ g1.putPixel 0 5 = g1 :=
  ⟨putPixel_oob g1 (-1) 0 (Or.inl (by decide)),
   putPixel_oob g1 0 5 (Or.inr (Or.inr (Or.inr (by decide))))⟩
